import Mathlib

/-!
Verification development for the fasm-language-support symbol indexer.

The development shallowly embeds the two core modules:

* `src/symbols.ts` — the line classifier (nine anchored regular expressions),
  name normalization, and the per-document symbol-table builder;
* `src/goto.ts` — the aggregated multi-document index (`FasmgSymbolIndex`),
  its lookup operations, document add/remove, and the persisted-cache format.

Strings are modelled as `List Char` (JavaScript strings restricted to the
code points actually produced by the classifier, i.e. line text); JavaScript
`Map` objects are modelled as insertion-ordered association lists, matching
the iteration-order semantics the code relies on.  Each regular expression is
translated to an explicit matching function; the translation notes record the
backtracking analysis justifying each one.
-/

namespace FasmLS

/-! ## JavaScript character classes and string primitives -/

/-- Character class of the JavaScript `\s` escape, restricted to the ASCII
whitespace characters that can occur in a document line (space, tab, CR, LF,
vertical tab, form feed). -/
def isJsSpace (c : Char) : Bool :=
  c == ' ' || c == '\t' || c == '\n' || c == '\r' ||
  c == Char.ofNat 11 || c == Char.ofNat 12

/-- First-character class of the identifier regex `[.?A-Za-z_$]`. -/
def isIdentStartChar (c : Char) : Bool :=
  c == '.' || c == '?' || ('A' ≤ c && c ≤ 'Z') || ('a' ≤ c && c ≤ 'z') ||
  c == '_' || c == '$'

/-- Continuation-character class of the identifier regex `[A-Za-z0-9_.#$?]`. -/
def isIdentContChar (c : Char) : Bool :=
  ('A' ≤ c && c ≤ 'Z') || ('a' ≤ c && c ≤ 'z') || ('0' ≤ c && c ≤ '9') ||
  c == '_' || c == '.' || c == '#' || c == '$' || c == '?'

/-- Word characters (`\w`), as used by the `\b` boundary assertion. -/
def isWordChar (c : Char) : Bool :=
  ('A' ≤ c && c ≤ 'Z') || ('a' ≤ c && c ≤ 'z') || ('0' ≤ c && c ≤ '9') ||
  c == '_'

/-- ASCII-range model of JavaScript `String.prototype.toLowerCase` on one
character. -/
def lowerChar (c : Char) : Char :=
  if 'A' ≤ c && c ≤ 'Z' then Char.ofNat (c.toNat + 32) else c

/-- Model of `toLowerCase` on a whole string. -/
def lowerStr (cs : List Char) : List Char := cs.map lowerChar

/-- Model of JavaScript `String.prototype.trim`. -/
def jsTrim (cs : List Char) : List Char :=
  ((cs.dropWhile isJsSpace).reverse.dropWhile isJsSpace).reverse

/-- Helper for `jsIndexOf`: first position at or after `i` where `pat`
occurs in `hay`, or `-1` once the haystack is exhausted. -/
def jsIndexOfAux (pat : List Char) : List Char → Nat → Int
  | [], i => if pat.isPrefixOf [] then (i : Int) else -1
  | c :: t, i =>
    if pat.isPrefixOf (c :: t) then (i : Int) else jsIndexOfAux pat t (i + 1)

/-- Model of JavaScript `String.prototype.indexOf`: index of the first
occurrence of `pat` in `hay`, or `-1` when absent. -/
def jsIndexOf (hay pat : List Char) : Int := jsIndexOfAux pat hay 0

/-! ## The nine classifier regular expressions (`src/symbols.ts`)

Every pattern is anchored `^\s*…` and is run by `RegExpExecArray.exec` on the
comment-stripped line; only the identifier capture group is consumed by the
builder.  Because `:` `=` and whitespace are outside the identifier
continuation class, the greedy identifier capture never backtracks except
where a trailing `\b` follows the capture group; there the engine shortens
the capture one character at a time, so the effective capture is the longest
nonempty prefix of the maximal identifier run with a word boundary at its
end.  Keyword alternations followed by `\b` succeed exactly when some
alternative is present with no word character after it. -/

/-- Splitting off a maximal identifier run `[.?A-Za-z_$][A-Za-z0-9_.#$?]*`:
returns the run and the remaining characters, or `none` when the first
character is not in the start class. -/
def identRunSplit : List Char → Option (List Char × List Char)
  | [] => none
  | c :: rest =>
    if isIdentStartChar c then
      some (c :: rest.takeWhile isIdentContChar, rest.dropWhile isIdentContChar)
    else none

/-- Word-boundary test between a final character and the following character
(`none` = end of input), as in the `\b` assertion. -/
def wordBoundaryAfter (c : Char) : Option Char → Bool
  | none => isWordChar c
  | some d => isWordChar c != isWordChar d

/-- Helper for `boundaryTrim`, walking the reversed run. -/
def boundaryTrimAux : List Char → Option Char → Option (List Char)
  | [], _ => none
  | c :: rs, nxt =>
    if wordBoundaryAfter c nxt then some ((c :: rs).reverse)
    else boundaryTrimAux rs (some c)

/-- Longest nonempty prefix of `run` whose end satisfies `\b` (the following
character being the next run character, or else the head of `rest`).  This is
the capture produced by a greedy identifier group directly followed by `\b`. -/
def boundaryTrim (run rest : List Char) : Option (List Char) :=
  boundaryTrimAux run.reverse rest.head?

/-- Keyword test `kw` followed by `\b`: the input starts with `kw`
case-insensitively and the next character (if any) is not a word character. -/
def kwWithBoundary (cs : List Char) (kw : String) : Bool :=
  lowerStr (cs.take kw.length) == kw.data &&
    !((cs.drop kw.length).head?.elim false isWordChar)

/-- Requirement `\s+`: at least one whitespace character, returning the input
with the maximal whitespace run removed. -/
def wsPlus (cs : List Char) : Option (List Char) :=
  match cs with
  | c :: rest => if isJsSpace c then some (rest.dropWhile isJsSpace) else none
  | [] => none

/-- Keyword set of `dataLabelRegex`. -/
def dataKeywords : List String :=
  ["db", "dw", "dd", "dq", "dt", "dp", "ddq", "dqq", "ddqq",
   "rb", "rw", "rd", "rq", "rt", "rp", "rdq", "rqq", "rdqq", "emit", "file"]

/-- Capture of `labelDefRegex` (pattern 1, label-colon):
the regex is written with an identifier capture followed by two colons or one. -/
def labelDefExec (text : List Char) : Option (List Char) :=
  match identRunSplit (text.dropWhile isJsSpace) with
  | some (name, rest) => if rest.head? == some ':' then some name else none
  | none => none

/-- Shared shape of `dataLabelRegex` and `equRegex`: identifier, `\s+`, then a
keyword alternation closed by `\b`; capture group 1 (the identifier). -/
def identKwExec (kws : List String) (text : List Char) : Option (List Char) :=
  match identRunSplit (text.dropWhile isJsSpace) with
  | some (name, rest) =>
    match wsPlus rest with
    | some after =>
      if kws.any (fun k => kwWithBoundary after k) then some name else none
    | none => none
  | none => none

/-- Capture of `dataLabelRegex` (pattern 2, data-declaration label). -/
def dataLabelExec (text : List Char) : Option (List Char) :=
  identKwExec dataKeywords text

/-- Capture of `equRegex` (pattern 6). -/
def equExec (text : List Char) : Option (List Char) :=
  identKwExec ["equ", "reequ"] text

/-- Shared shape of the keyword-then-identifier patterns
(`labelKeywordRegex`, `elementRegex`, `loadRegex`, `macroRegex`, and each
alternative of `defineRegex`): keyword (case-insensitive), `\s+`, identifier
capture, `\b`. -/
def kwIdentExec (kw : String) (text : List Char) : Option (List Char) :=
  let cs := text.dropWhile isJsSpace
  if lowerStr (cs.take kw.length) == kw.data then
    match wsPlus (cs.drop kw.length) with
    | some after =>
      match identRunSplit after with
      | some (name, rest) => boundaryTrim name rest
      | none => none
    | none => none
  else none

/-- Capture of `labelKeywordRegex` (pattern 3). -/
def labelKeywordExec (text : List Char) : Option (List Char) :=
  kwIdentExec "label" text

/-- Capture of `elementRegex` (pattern 4). -/
def elementExec (text : List Char) : Option (List Char) :=
  kwIdentExec "element" text

/-- Capture group 2 of `defineRegex` (pattern 5).  The two alternatives have
distinct first letters, so at most one of them can match a given line. -/
def defineExec (text : List Char) : Option (List Char) :=
  match kwIdentExec "define" text with
  | some n => some n
  | none => kwIdentExec "redefine" text

/-- Capture of `macroRegex` (pattern 7). -/
def macroExec (text : List Char) : Option (List Char) :=
  kwIdentExec "macro" text

/-- Capture of `assignRegex` (pattern 8): identifier, `\s*`, then `:=`, `=:`
or `=`.  The three alternatives all begin with `:` or `=`, so success only
depends on the first one or two characters after the whitespace. -/
def assignExec (text : List Char) : Option (List Char) :=
  match identRunSplit (text.dropWhile isJsSpace) with
  | some (name, rest) =>
    match rest.dropWhile isJsSpace with
    | ':' :: '=' :: _ => some name
    | '=' :: _ => some name
    | _ => none
  | none => none

/-- Capture of `loadRegex` (pattern 9). -/
def loadExec (text : List Char) : Option (List Char) :=
  kwIdentExec "load" text

/-! ## Name normalization and the per-document symbol table -/

/-- Model of `vscode.Range` as it is used by the builder: a single-line span
`(sl, sc)`–`(el, ec)` in zero-based line and column coordinates. -/
structure SrcRange where
  sl : Nat
  sc : Nat
  el : Nat
  ec : Nat
deriving DecidableEq

/-- Result record of `normalizeDefinitionName`. -/
structure NormalizedName where
  baseName : String
  isCaseInsensitive : Bool
deriving DecidableEq

/-- Result record of `normalizeUsageName`. -/
structure UsageName where
  baseName : String
  isExplicitCaseInsensitive : Bool
deriving DecidableEq

/-- Translation of `normalizeDefinitionName`: trim; empty gives no result;
a trailing `?` on a name longer than one character marks it case-insensitive
and is stripped. -/
def normalizeDefinitionName (raw : String) : Option NormalizedName :=
  let name := jsTrim raw.data
  if name.isEmpty then none
  else if name.length > 1 && name.getLast? == some '?' then
    let stripped := name.dropLast
    if stripped.isEmpty then none else some ⟨String.mk stripped, true⟩
  else some ⟨String.mk name, false⟩

/-- Translation of `normalizeUsageName`: same trim and trailing-`?` handling,
but an empty name yields an empty `baseName` instead of no result. -/
def normalizeUsageName (raw : String) : UsageName :=
  let name := jsTrim raw.data
  if name.isEmpty then ⟨"", false⟩
  else if name.length > 1 && name.getLast? == some '?' then
    ⟨String.mk name.dropLast, true⟩
  else ⟨String.mk name, false⟩

/-- The per-document `SymbolTable` of `src/symbols.ts`: four insertion-ordered
maps from canonical name to the ordered list of definition ranges. -/
structure SymbolTable where
  labelsSensitive : List (String × List SrcRange)
  labelsInsensitive : List (String × List SrcRange)
  valuesSensitive : List (String × List SrcRange)
  valuesInsensitive : List (String × List SrcRange)
deriving DecidableEq

/-- The empty symbol table (all four maps empty). -/
def SymbolTable.empty : SymbolTable := ⟨[], [], [], []⟩

/-- Translation of `addRange`: push onto the existing list for `key`
(keeping the map position), or add a fresh singleton entry at the end. -/
def addRange (m : List (String × List α)) (key : String) (r : α) :
    List (String × List α) :=
  match m with
  | [] => [(key, [r])]
  | (k, v) :: rest =>
    if k = key then (k, v ++ [r]) :: rest else (k, v) :: addRange rest key r

/-- Translation of `addLabel`: normalize, choose the bucket and key from the
case policy, append the range. -/
def addLabel (table : SymbolTable) (rawName : String) (range : SrcRange) :
    SymbolTable :=
  match normalizeDefinitionName rawName with
  | none => table
  | some norm =>
    let key := if norm.isCaseInsensitive then String.mk (lowerStr norm.baseName.data)
               else norm.baseName
    if norm.isCaseInsensitive then
      { table with labelsInsensitive := addRange table.labelsInsensitive key range }
    else
      { table with labelsSensitive := addRange table.labelsSensitive key range }

/-- Translation of `addValue` (identical to `addLabel` on the value buckets). -/
def addValue (table : SymbolTable) (rawName : String) (range : SrcRange) :
    SymbolTable :=
  match normalizeDefinitionName rawName with
  | none => table
  | some norm =>
    let key := if norm.isCaseInsensitive then String.mk (lowerStr norm.baseName.data)
               else norm.baseName
    if norm.isCaseInsensitive then
      { table with valuesInsensitive := addRange table.valuesInsensitive key range }
    else
      { table with valuesSensitive := addRange table.valuesSensitive key range }

/-- One recognized definition: look up the captured name's first occurrence in
the comment-stripped text (`indexOf`), and record it unless the column guard
`col >= 0` fails (in which case the definition is silently dropped). -/
def recordDef (adder : SymbolTable → String → SrcRange → SymbolTable)
    (table : SymbolTable) (line : Nat) (text : List Char) (name : List Char) :
    SymbolTable :=
  let col := jsIndexOf text name
  if 0 ≤ col then
    adder table (String.mk name) ⟨line, col.toNat, line, col.toNat + name.length⟩
  else table

/-- Try one of the eight non-exclusive patterns on a line. -/
def tryPat (adder : SymbolTable → String → SrcRange → SymbolTable)
    (cap : List Char → Option (List Char)) (table : SymbolTable)
    (line : Nat) (text : List Char) : SymbolTable :=
  match cap text with
  | some name => recordDef adder table line text name
  | none => table

/-- The eight patterns tried independently, in source order, on a line that
did not match the label-colon pattern. -/
def processNonColon (table : SymbolTable) (line : Nat) (text : List Char) :
    SymbolTable :=
  let t1 := tryPat addLabel dataLabelExec table line text
  let t2 := tryPat addLabel labelKeywordExec t1 line text
  let t3 := tryPat addValue elementExec t2 line text
  let t4 := tryPat addValue defineExec t3 line text
  let t5 := tryPat addValue equExec t4 line text
  let t6 := tryPat addValue macroExec t5 line text
  let t7 := tryPat addValue assignExec t6 line text
  tryPat addValue loadExec t7 line text

/-- Model of `fullText.split(char 59, 1)[0]`: the text before the first
semicolon. -/
def stripComment (s : String) : List Char :=
  s.data.takeWhile (fun c => c ≠ ';')

/-- One iteration of the builder loop: strip the comment, skip blank lines,
give the label-colon pattern exclusive priority (`continue` after a match),
otherwise run the eight remaining patterns independently. -/
def processLine (table : SymbolTable) (line : Nat) (fullText : String) :
    SymbolTable :=
  let text := stripComment fullText
  if jsTrim text = [] then table
  else
    match labelDefExec text with
    | some name => recordDef addLabel table line text name
    | none => processNonColon table line text

/-- Builder loop over the remaining lines, carrying the current line number. -/
def buildSymbolTableAux (table : SymbolTable) (line : Nat) :
    List String → SymbolTable
  | [] => table
  | s :: rest => buildSymbolTableAux (processLine table line s) (line + 1) rest

/-- Translation of `buildSymbolTable`: scan every line of the document. -/
def buildSymbolTable (lines : List String) : SymbolTable :=
  buildSymbolTableAux SymbolTable.empty 0 lines

/-! ## The aggregated index (`src/goto.ts`, class `FasmgSymbolIndex`)

JavaScript `Map` objects are modelled as insertion-ordered association
lists; `Uri.parse` and `Uri.toString` are modelled as the identity on the
uri string. -/

/-- Definition kind (the string union `label | value` of the source). -/
inductive SymKind
  | label
  | value
deriving DecidableEq

/-- Entry of the four aggregated maps (`SymbolLocation` in the source). -/
structure SymbolLocation where
  uri : String
  range : SrcRange
  kind : SymKind
  isCaseInsensitive : Bool
deriving DecidableEq

/-- Result element of `findDefinitions` (`vscode.Location`). -/
structure Location where
  uri : String
  range : SrcRange
deriving DecidableEq

/-- An in-memory text document, with the fields the index consults. -/
structure Document where
  uri : String
  fsPath : String
  languageId : String
  lines : List String
deriving DecidableEq

/-- JavaScript `Map.get`. -/
def aGet : List (String × α) → String → Option α
  | [], _ => none
  | (k, v) :: rest, key => if k = key then some v else aGet rest key

/-- The `m.get(k) ?? d` idiom. -/
def aGetD (m : List (String × α)) (key : String) (d : α) : α :=
  (aGet m key).getD d

/-- JavaScript `Map.delete` (keys are unique in a `Map`, so removing every
binding of the key is faithful). -/
def aDelete : List (String × α) → String → List (String × α)
  | [], _ => []
  | (k, v) :: rest, key =>
    if k = key then aDelete rest key
    else (k, v) :: aDelete rest key

/-- JavaScript `Map.set`: overwrite in place, or append a new entry. -/
def aSet : List (String × α) → String → α → List (String × α)
  | [], key, v => [(key, v)]
  | (k, w) :: rest, key, v =>
    if k = key then (k, v) :: rest else (k, w) :: aSet rest key v

/-- The mutable state of `FasmgSymbolIndex`: the per-document table map and
the four aggregated maps. -/
structure IndexState where
  documents : List (String × SymbolTable)
  labelsSensitive : List (String × List SymbolLocation)
  labelsInsensitive : List (String × List SymbolLocation)
  valuesSensitive : List (String × List SymbolLocation)
  valuesInsensitive : List (String × List SymbolLocation)
deriving DecidableEq

/-- The freshly constructed (or fully cleared) index. -/
def IndexState.empty : IndexState := ⟨[], [], [], [], []⟩

/-- Translation of `isIndexableDocument`. -/
def isIndexableDocument (d : Document) : Bool :=
  d.languageId == "fasmg" ||
    (let fsPath := lowerStr d.fsPath.data
     List.isSuffixOf ".asm".data fsPath || List.isSuffixOf ".inc".data fsPath)

/-- Translation of `removeFromIndex`: walk the map entries; filter each
entry's locations by uri, delete the entry when the filtered list is empty,
otherwise store the filtered list (storing the identical list when nothing
was filtered out, as `index.set` would, is the same value). -/
def removeFromIndex (uriStr : String) :
    List (String × List SymbolLocation) → List (String × List SymbolLocation)
  | [] => []
  | (n, locs) :: rest =>
    if (locs.filter (fun loc => loc.uri ≠ uriStr)).length = 0 then
      removeFromIndex uriStr rest
    else
      (n, locs.filter (fun loc => loc.uri ≠ uriStr)) ::
        removeFromIndex uriStr rest

/-- Body of the `add` closure in `addTableToIndex` for one name: fetch or
create the aggregated list (a fresh empty list is installed when absent, so
an empty range list still creates an entry), then push each location. -/
def appendLocs (target : List (String × List SymbolLocation)) (name : String)
    (locs : List SymbolLocation) : List (String × List SymbolLocation) :=
  match target with
  | [] => [(name, locs)]
  | (k, v) :: rest =>
    if k = name then (k, v ++ locs) :: rest
    else (k, v) :: appendLocs rest name locs

/-- The `add` closure of `addTableToIndex` applied to one whole bucket. -/
def addBucket (uri : String) (kind : SymKind) (ins : Bool)
    (entries : List (String × List SrcRange))
    (target : List (String × List SymbolLocation)) :
    List (String × List SymbolLocation) :=
  entries.foldl
    (fun tgt e => appendLocs tgt e.1 (e.2.map (fun r => ⟨uri, r, kind, ins⟩)))
    target

/-- Translation of `addTableToIndex`: merge a document table into the four
aggregated maps. -/
def addTableToIndex (uri : String) (table : SymbolTable) (st : IndexState) :
    IndexState :=
  { st with
    labelsSensitive := addBucket uri .label false table.labelsSensitive st.labelsSensitive
    labelsInsensitive := addBucket uri .label true table.labelsInsensitive st.labelsInsensitive
    valuesSensitive := addBucket uri .value false table.valuesSensitive st.valuesSensitive
    valuesInsensitive := addBucket uri .value true table.valuesInsensitive st.valuesInsensitive }

/-- Translation of `indexDocument`: eligibility filter, delete-then-insert of
the document's contributions (the debounced save scheduling has no effect on
the index state and is omitted). -/
def indexDocument (st : IndexState) (d : Document) : IndexState :=
  if isIndexableDocument d then
    let key := d.uri
    let st1 : IndexState :=
      { documents := aDelete st.documents key
        labelsSensitive := removeFromIndex key st.labelsSensitive
        labelsInsensitive := removeFromIndex key st.labelsInsensitive
        valuesSensitive := removeFromIndex key st.valuesSensitive
        valuesInsensitive := removeFromIndex key st.valuesInsensitive }
    let table := buildSymbolTable d.lines
    addTableToIndex key table { st1 with documents := aSet st1.documents key table }
  else st

/-- Translation of `removeDocument`. -/
def removeDocument (st : IndexState) (uri : String) : IndexState :=
  { documents := aDelete st.documents uri
    labelsSensitive := removeFromIndex uri st.labelsSensitive
    labelsInsensitive := removeFromIndex uri st.labelsInsensitive
    valuesSensitive := removeFromIndex uri st.valuesSensitive
    valuesInsensitive := removeFromIndex uri st.valuesInsensitive }

/-- The `map.get(key)?.length` truthiness test of the lookup methods:
true exactly when the key is bound to a nonempty list. -/
def bucketHit (m : List (String × List SymbolLocation)) (key : String) : Bool :=
  !(aGetD m key []).isEmpty

/-- Translation of `lookupSymbolKind`: sensitive Label, then sensitive Value
(both skipped for an explicitly case-insensitive usage), then the
unconditional lower-cased fallback to insensitive Label then Value. -/
def lookupSymbolKind (st : IndexState) (rawUsageName : String) :
    Option SymKind :=
  let n := normalizeUsageName rawUsageName
  if n.baseName = "" then none
  else if !n.isExplicitCaseInsensitive && bucketHit st.labelsSensitive n.baseName then
    some .label
  else if !n.isExplicitCaseInsensitive && bucketHit st.valuesSensitive n.baseName then
    some .value
  else
    let lower := String.mk (lowerStr n.baseName.data)
    if bucketHit st.labelsInsensitive lower then some .label
    else if bucketHit st.valuesInsensitive lower then some .value
    else none

/-- Projection of an aggregated-map entry to a `vscode.Location`. -/
def locationOf (loc : SymbolLocation) : Location := ⟨loc.uri, loc.range⟩

/-- Translation of `findDefinitions`: collect sensitive Label then sensitive
Value locations (skipped for an explicitly insensitive usage) and return them
if any; otherwise collect insensitive Label then insensitive Value locations
under the lower-cased key. -/
def findDefinitions (st : IndexState) (rawUsageName : String) : List Location :=
  let n := normalizeUsageName rawUsageName
  if n.baseName = "" then []
  else
    let sens : List Location :=
      if !n.isExplicitCaseInsensitive then
        (aGetD st.labelsSensitive n.baseName [] ++
          aGetD st.valuesSensitive n.baseName []).map locationOf
      else []
    if sens ≠ [] then sens
    else
      let lower := String.mk (lowerStr n.baseName.data)
      (aGetD st.labelsInsensitive lower [] ++
        aGetD st.valuesInsensitive lower []).map locationOf

/-! ## Persistence (`saveToCache` / `loadFromCache`) -/

/-- The `\x7bsl, sc, el, ec\x7d` quadruple of the cache format. -/
structure PersistedRange where
  sl : Nat
  sc : Nat
  el : Nat
  ec : Nat
deriving DecidableEq

/-- Translation of `rangesToPersisted`. -/
def rangesToPersisted (ranges : List SrcRange) : List PersistedRange :=
  ranges.map (fun r => ⟨r.sl, r.sc, r.el, r.ec⟩)

/-- Translation of `persistedToRanges`. -/
def persistedToRanges (ranges : List PersistedRange) : List SrcRange :=
  ranges.map (fun r => ⟨r.sl, r.sc, r.el, r.ec⟩)

/-- Translation of `mapToRecord` (plain objects keep the insertion order of
identifier-shaped keys, so an ordered association list is faithful). -/
def mapToRecord (m : List (String × List SrcRange)) :
    List (String × List PersistedRange) :=
  m.map (fun e => (e.1, rangesToPersisted e.2))

/-- Translation of `recordToMap`. -/
def recordToMap (rec : List (String × List PersistedRange)) :
    List (String × List SrcRange) :=
  rec.map (fun e => (e.1, persistedToRanges e.2))

/-- A per-document record of the cache file. -/
structure PersistedSymbolTable where
  uri : String
  labelsSensitive : List (String × List PersistedRange)
  labelsInsensitive : List (String × List PersistedRange)
  valuesSensitive : List (String × List PersistedRange)
  valuesInsensitive : List (String × List PersistedRange)
deriving DecidableEq

/-- The top-level cache payload. -/
structure PersistedIndex where
  documents : List PersistedSymbolTable
deriving DecidableEq

/-- Serialization loop of `saveToCache` (the part that builds the payload
from `this.documents`; the file write itself is external I/O). -/
def saveToCachePayload (st : IndexState) : PersistedIndex :=
  ⟨st.documents.map (fun e =>
    ⟨e.1, mapToRecord e.2.labelsSensitive, mapToRecord e.2.labelsInsensitive,
     mapToRecord e.2.valuesSensitive, mapToRecord e.2.valuesInsensitive⟩)⟩

/-- One iteration of the load loop of `loadFromCache`: rebuild the document
table and merge it into the aggregated maps. -/
def loadDocStep (st : IndexState) (doc : PersistedSymbolTable) : IndexState :=
  let table : SymbolTable :=
    ⟨recordToMap doc.labelsSensitive, recordToMap doc.labelsInsensitive,
     recordToMap doc.valuesSensitive, recordToMap doc.valuesInsensitive⟩
  addTableToIndex doc.uri table { st with documents := aSet st.documents doc.uri table }

/-- State produced by the success path of `loadFromCache` on an
already-parsed payload: clear everything, then load each document record. -/
def applyLoadedIndex (parsed : PersistedIndex) : IndexState :=
  parsed.documents.foldl loadDocStep IndexState.empty

/-! ## Cache decoding with JavaScript exception semantics

The `try`/`catch` in `loadFromCache` only wraps `vscode.workspace.fs.readFile`
and `JSON.parse`; everything after the parse runs unprotected.  To analyse the
error-handling behaviour the decoding steps are modelled over a JSON value type
with JavaScript evaluation semantics: property access on `null` throws,
`for…of` over a non-iterable (in particular `undefined`) throws,
`Object.entries` of `undefined`/`null` throws, `.map` of a non-array throws,
and the `vscode.Range`/`Uri.parse` constructors throw on ill-typed arguments.
`Except.error` models such an exception propagating out of `loadFromCache`. -/

/-- Values produced by `JSON.parse`. -/
inductive Json where
  | null
  | bool (b : Bool)
  | num (n : Int)
  | str (s : String)
  | arr (elems : List Json)
  | obj (fields : List (String × Json))

/-- JavaScript property access `v.f`: throws on `null`, yields the field on
an object, and `undefined` (here `none`) on primitives, arrays, and objects
lacking the field. -/
def jsField : Json → String → Except Unit (Option Json)
  | .null, _ => .error ()
  | .obj fields, f => .ok (aGet fields f)
  | _, _ => .ok none

/-- JavaScript `for…of` iterability: arrays iterate their elements, strings
iterate their characters; `undefined`, `null`, numbers, booleans and plain
objects throw. -/
def jsIterate : Option Json → Except Unit (List Json)
  | some (.arr l) => .ok l
  | some (.str s) => .ok (s.data.map (fun c => .str (String.mk [c])))
  | _ => .error ()

/-- `vscode.Uri.parse` requires a string argument and throws otherwise. -/
def jsUriParse : Option Json → Except Unit String
  | some (.str s) => .ok s
  | _ => .error ()

/-- `Object.entries`: throws on `undefined` and `null`; objects yield their
fields, arrays and strings yield index-keyed entries, other primitives yield
nothing. -/
def jsEntries : Option Json → Except Unit (List (String × Json))
  | none => .error ()
  | some .null => .error ()
  | some (.obj fields) => .ok fields
  | some (.arr l) => .ok (l.enum.map (fun p => (toString p.1, p.2)))
  | some (.str s) => .ok (s.data.enum.map (fun p => (toString p.1, .str (String.mk [p.2]))))
  | some _ => .ok []

/-- Argument check performed by the `vscode.Range` constructor inside
`persistedToRanges`: each coordinate must be a non-negative number. -/
def jsNatArg : Option Json → Except Unit Nat
  | some (.num n) => if 0 ≤ n then .ok n.toNat else .error ()
  | _ => .error ()

/-- Decoding one `\x7bsl, sc, el, ec\x7d` object as `persistedToRanges` and the
`vscode.Range` constructor do. -/
def decodeRange (r : Json) : Except Unit SrcRange := do
  let sl ← jsNatArg (← jsField r "sl")
  let sc ← jsNatArg (← jsField r "sc")
  let el ← jsNatArg (← jsField r "el")
  let ec ← jsNatArg (← jsField r "ec")
  pure ⟨sl, sc, el, ec⟩

/-- The `ranges.map(…)` call of `persistedToRanges`: `.map` exists only on
arrays. -/
def jsRangeList : Json → Except Unit (List SrcRange)
  | .arr l => l.mapM decodeRange
  | _ => .error ()

/-- `recordToMap` applied to an arbitrary field value: `Object.entries`, then
`map.set(k, persistedToRanges(v))` for each entry. -/
def decodeRecordToMap (v : Option Json) :
    Except Unit (List (String × List SrcRange)) := do
  let entries ← jsEntries v
  entries.foldlM
    (fun m e => do
      let rs ← jsRangeList e.2
      pure (aSet m e.1 rs))
    []

/-- Decoding one element of `parsed.documents` as the load loop does:
`Uri.parse(doc.uri)` first, then the four `recordToMap` calls. -/
def decodeDoc (j : Json) : Except Unit (String × SymbolTable) := do
  let uri ← jsUriParse (← jsField j "uri")
  let ls ← decodeRecordToMap (← jsField j "labelsSensitive")
  let li ← decodeRecordToMap (← jsField j "labelsInsensitive")
  let vs ← decodeRecordToMap (← jsField j "valuesSensitive")
  let vi ← decodeRecordToMap (← jsField j "valuesInsensitive")
  pure (uri, ⟨ls, li, vs, vi⟩)

/-- `loadFromCache` applied to a successfully parsed JSON value: iterate
`parsed.documents` (throwing when it is absent or not iterable), decode each
record, and rebuild the cleared index.  An `Except.error` result is an
uncaught exception escaping `loadFromCache`. -/
def loadFromCacheParsed (parsed : Json) : Except Unit IndexState := do
  let docs ← jsIterate (← jsField parsed "documents")
  let tables ← docs.mapM decodeDoc
  pure (tables.foldl
    (fun st t =>
      addTableToIndex t.1 t.2 { st with documents := aSet st.documents t.1 t.2 })
    IndexState.empty)

/-- The cache-loading stage of the initialization started by
`ensureInitialized`.  The input describes the cache file: `none` = missing or
unreadable (the `readFile` `catch` returns), `some none` = contents fail
`JSON.parse` (the parse `catch` returns), `some (some j)` = contents parse to
`j`.  An `Except.error` result models the exception rejecting the memoized
`initialScan` promise, so initialization fails outright and the workspace
scan never runs. -/
def initialScanLoadOutcome : Option (Option Json) → Except Unit IndexState
  | none => .ok IndexState.empty
  | some none => .ok IndexState.empty
  | some (some j) => loadFromCacheParsed j

/-! ## Derived notions used by the theorem statements -/

/-- The insensitive-tier lookup (insensitive Label bucket, then insensitive
Value bucket) at an already lower-cased key. -/
def insensitiveTierLookup (st : IndexState) (lower : String) : Option SymKind :=
  if bucketHit st.labelsInsensitive lower then some SymKind.label
  else if bucketHit st.valuesInsensitive lower then some SymKind.value
  else none

/-- Concatenated sensitive-Label-then-sensitive-Value locations at an
exact-case key. -/
def sensitiveConcat (st : IndexState) (base : String) : List Location :=
  (aGetD st.labelsSensitive base [] ++ aGetD st.valuesSensitive base []).map locationOf

/-- Concatenated insensitive-Label-then-insensitive-Value locations at a
lower-cased key. -/
def insensitiveConcat (st : IndexState) (lower : String) : List Location :=
  (aGetD st.labelsInsensitive lower [] ++ aGetD st.valuesInsensitive lower []).map locationOf

/-- Uniqueness of the keys of an association list; every JavaScript `Map`
satisfies it by construction. -/
def keysNodup (m : List (String × α)) : Prop :=
  (m.map Prod.fst).Nodup

instance (m : List (String × α)) : Decidable (keysNodup m) :=
  inferInstanceAs (Decidable (m.map Prod.fst).Nodup)

/-- One step of rebuilding an index from per-document tables: exactly what
each iteration of the `loadFromCache` load loop does with a decoded table. -/
def rebuildStep (st : IndexState) (e : String × SymbolTable) : IndexState :=
  addTableToIndex e.1 e.2 { st with documents := aSet st.documents e.1 e.2 }

/-- Rebuilding an index from its per-document tables alone, in document
insertion order (this is exactly what the load loop of `loadFromCache` does
to a saved index). -/
def rebuildFromDocuments (docs : List (String × SymbolTable)) : IndexState :=
  docs.foldl rebuildStep IndexState.empty

/-- The locations one document table bucket contributes, under one
aggregated key, when merged by `addTableToIndex` with the given uri tag:
the concatenation (in bucket order) of the tagged range lists of every
bucket entry bound to that key. -/
def bucketContrib (uri : String) (kind : SymKind) (ins : Bool) :
    List (String × List SrcRange) → String → List SymbolLocation
  | [], _ => []
  | e :: es, k =>
    if e.1 = k then
      e.2.map (fun r => ⟨uri, r, kind, ins⟩) ++ bucketContrib uri kind ins es k
    else bucketContrib uri kind ins es k

/-- Total contribution, under one aggregated key, of a list of per-document
tables merged in order — the aggregation law of `addTableToIndex` for one of
the four buckets, with the bucket selected by the accessor `f`. -/
def aggLocs (kind : SymKind) (ins : Bool)
    (f : SymbolTable → List (String × List SrcRange))
    (ds : List (String × SymbolTable)) (k : String) : List SymbolLocation :=
  (ds.map (fun e => bucketContrib e.1 kind ins (f e.2) k)).flatten

/-- States reachable through the index's mutator interface: a fresh index,
followed by any sequence of `indexDocument` and `removeDocument` calls. -/
inductive Reachable : IndexState → Prop
  | empty : Reachable IndexState.empty
  | index (st : IndexState) (d : Document) :
      Reachable st → Reachable (indexDocument st d)
  | remove (st : IndexState) (u : String) :
      Reachable st → Reachable (removeDocument st u)

/-- Coherence of an index state: each aggregated map answers `get` (up to the
`?? empty` default) exactly as the aggregation rebuilt from the per-document
tables does.  The empty index is coherent, and every state the class can
reach keeps the aggregated maps in sync with `documents`, so this captures
the reachable states while remaining checkable on concrete ones. -/
def Coherent (st : IndexState) : Prop :=
  ∀ name : String,
    aGetD st.labelsSensitive name [] =
      aGetD (rebuildFromDocuments st.documents).labelsSensitive name [] ∧
    aGetD st.labelsInsensitive name [] =
      aGetD (rebuildFromDocuments st.documents).labelsInsensitive name [] ∧
    aGetD st.valuesSensitive name [] =
      aGetD (rebuildFromDocuments st.documents).valuesSensitive name [] ∧
    aGetD st.valuesInsensitive name [] =
      aGetD (rebuildFromDocuments st.documents).valuesInsensitive name []

/-- The running invariant of `FasmgSymbolIndex`: coherence of the aggregated
maps with the per-document tables, plus uniqueness of each aggregated map's
keys (a property every JavaScript `Map` enforces). -/
def IndexInv (st : IndexState) : Prop :=
  Coherent st ∧
  keysNodup st.labelsSensitive ∧ keysNodup st.labelsInsensitive ∧
  keysNodup st.valuesSensitive ∧ keysNodup st.valuesInsensitive

/-! ## Concrete documents and states used by the scenario claims -/

/-- Document whose only definition of `foo` uses the insensitive marker
(`foo? = 1` is a plain-assignment definition of the marked name `foo?`). -/
def docInsensitiveOnly : Document :=
  ⟨"file:///a.asm", "/a.asm", "fasmg", ["foo? = 1"]⟩

/-- Index holding only `docInsensitiveOnly`. -/
def stateInsensitiveOnly : IndexState :=
  indexDocument IndexState.empty docInsensitiveOnly

/-- Document whose only definition of `foo` is unmarked (case-sensitive). -/
def docSensitiveOnly : Document :=
  ⟨"file:///b.asm", "/b.asm", "fasmg", ["foo = 1"]⟩

/-- Index holding only `docSensitiveOnly`. -/
def stateSensitiveOnly : IndexState :=
  indexDocument IndexState.empty docSensitiveOnly

/-- All case variants of the three-letter name `foo`. -/
def fooVariants : List String :=
  ["foo", "foO", "fOo", "fOO", "Foo", "FoO", "FOo", "FOO"]

/-- The two-line document of the concrete end-to-end scenario. -/
def docScenario : Document :=
  ⟨"file:///t.asm", "/t.asm", "fasmg", ["counter equ 5", "result: mov eax, counter"]⟩

/-- Index holding only `docScenario`. -/
def stateScenario : IndexState :=
  indexDocument IndexState.empty docScenario

/-- Index holding `docScenario` and `docSensitiveOnly`. -/
def stateTwoDocs : IndexState :=
  indexDocument stateScenario docSensitiveOnly

/-! ## Theorems -/

/-- C9: for the two-line document `counter equ 5` / `result: mov eax, counter`
(lines 0 and 1 of the model), after indexing, `lookupSymbolKind "counter"`
returns Value, `lookupSymbolKind "result"` returns Label,
`findDefinitions "counter"` is exactly one location spanning columns 0–7 of
the first line, and `findDefinitions "result"` is exactly one location
spanning columns 0–6 of the second line. -/
theorem C9_concrete_scenario :
    lookupSymbolKind stateScenario "counter" = some SymKind.value ∧
    lookupSymbolKind stateScenario "result" = some SymKind.label ∧
    findDefinitions stateScenario "counter" = [⟨"file:///t.asm", ⟨0, 0, 0, 7⟩⟩] ∧
    findDefinitions stateScenario "result" = [⟨"file:///t.asm", ⟨1, 0, 1, 6⟩⟩] := by
  decide

/-- C1 (refuted, the code contradicts the documented intent): a cache file
whose contents are valid JSON but do not match the persisted-index schema is
NOT treated like a missing cache file.  The `try`/`catch` in `loadFromCache`
only protects `JSON.parse`; for the parsed value `\x7b\x7d` (an object with
no `documents` field) the subsequent `for (const doc of parsed.documents)`
iterates `undefined` and throws, the exception rejects the memoized
`initialScan` promise, and initialization fails outright instead of
degrading.  For contrast, a JSON *parse* failure and a schema-conforming
empty payload are handled as the claim describes. -/
theorem C1_schema_mismatch_fails_initialization :
    loadFromCacheParsed (Json.obj []) = Except.error () ∧
    initialScanLoadOutcome (some (some (Json.obj []))) = Except.error () ∧
    initialScanLoadOutcome (some none) = Except.ok IndexState.empty ∧
    loadFromCacheParsed (Json.obj [("documents", Json.arr [])]) =
      Except.ok IndexState.empty :=
  ⟨rfl, rfl, rfl, rfl⟩

/-- C4: definition storage keys are the baseName verbatim for sensitive names
and the lower-cased baseName for insensitive names (first conjunct, for both
`addLabel` and `addValue`); consequently, with `foo` defined only through the
marked spelling `foo?`, every case variant of `foo` (unmarked) resolves via
the insensitive fallback, while with `foo` defined only unmarked, every
*different*-case variant finds nothing. -/
theorem C4_case_policy_keys :
    (∀ (T : SymbolTable) (raw : String) (r : SrcRange) (n : NormalizedName),
      normalizeDefinitionName raw = some n →
      (n.isCaseInsensitive = true →
        addLabel T raw r =
          { T with labelsInsensitive :=
              addRange T.labelsInsensitive (String.mk (lowerStr n.baseName.data)) r } ∧
        addValue T raw r =
          { T with valuesInsensitive :=
              addRange T.valuesInsensitive (String.mk (lowerStr n.baseName.data)) r }) ∧
      (n.isCaseInsensitive = false →
        addLabel T raw r =
          { T with labelsSensitive := addRange T.labelsSensitive n.baseName r } ∧
        addValue T raw r =
          { T with valuesSensitive := addRange T.valuesSensitive n.baseName r })) ∧
    (∀ V : String, V ∈ fooVariants →
      (lookupSymbolKind stateInsensitiveOnly V = some SymKind.value ∧
        findDefinitions stateInsensitiveOnly V = [⟨"file:///a.asm", ⟨0, 0, 0, 4⟩⟩]) ∧
      (V ≠ "foo" →
        lookupSymbolKind stateSensitiveOnly V = none ∧
        findDefinitions stateSensitiveOnly V = [])) := by
  constructor
  · intro T raw r n hn
    constructor
    · intro hins
      unfold addLabel addValue
      rw [hn]
      simp [hins]
    · intro hsens
      unfold addLabel addValue
      rw [hn]
      simp [hsens]
  · intro V hV
    fin_cases hV
    · exact ⟨⟨by decide, by decide⟩, fun h => absurd rfl h⟩
    all_goals exact ⟨⟨by decide, by decide⟩, fun _ => ⟨by decide, by decide⟩⟩

/-- Closed instance of `C4_case_policy_keys`: the marked definition `foo?`
resolves for the unmarked usage `FOO`, and the unmarked definition `foo`
does not. -/
theorem C4_case_policy_keys_witness :
    lookupSymbolKind stateInsensitiveOnly "FOO" = some SymKind.value ∧
    lookupSymbolKind stateSensitiveOnly "FOO" = none :=
  ⟨(C4_case_policy_keys.2 "FOO" (by decide)).1.1,
   ((C4_case_policy_keys.2 "FOO" (by decide)).2 (by decide)).1⟩

/-- C2: for a usage without the `?` marker, `lookupSymbolKind` answers Label
when the sensitive Label bucket has a nonempty hit, Value when only the
sensitive Value bucket does, and otherwise falls through unconditionally to
the insensitive tier at the lower-cased key; for a `?`-marked usage the
sensitive buckets are skipped entirely.  In each tier a Label hit takes
precedence over any Value entry under the same key (last conjunct for the
insensitive tier, first conjunct for the sensitive one). -/
theorem C2_lookup_precedence :
    ∀ (st : IndexState) (raw : String),
      (normalizeUsageName raw).baseName ≠ "" →
      ((normalizeUsageName raw).isExplicitCaseInsensitive = false →
        (bucketHit st.labelsSensitive (normalizeUsageName raw).baseName = true →
          lookupSymbolKind st raw = some SymKind.label) ∧
        (bucketHit st.labelsSensitive (normalizeUsageName raw).baseName = false →
          bucketHit st.valuesSensitive (normalizeUsageName raw).baseName = true →
          lookupSymbolKind st raw = some SymKind.value) ∧
        (bucketHit st.labelsSensitive (normalizeUsageName raw).baseName = false →
          bucketHit st.valuesSensitive (normalizeUsageName raw).baseName = false →
          lookupSymbolKind st raw =
            insensitiveTierLookup st
              (String.mk (lowerStr (normalizeUsageName raw).baseName.data)))) ∧
      ((normalizeUsageName raw).isExplicitCaseInsensitive = true →
        lookupSymbolKind st raw =
          insensitiveTierLookup st
            (String.mk (lowerStr (normalizeUsageName raw).baseName.data))) ∧
      (∀ lower : String, bucketHit st.labelsInsensitive lower = true →
        insensitiveTierLookup st lower = some SymKind.label) := by
  intro st raw hbase
  refine ⟨fun hexp => ⟨fun hls => ?_, fun hls hvs => ?_, fun hls hvs => ?_⟩,
          fun hexp => ?_, fun lower hl => ?_⟩ <;>
    simp [lookupSymbolKind, insensitiveTierLookup, hbase, *]

/-- Closed instance of `C2_lookup_precedence` at the concrete scenario
state: the unmarked usage `result` hits the sensitive Label bucket. -/
theorem C2_lookup_precedence_witness :
    lookupSymbolKind stateScenario "result" = some SymKind.label :=
  ((C2_lookup_precedence stateScenario "result" (by decide)).1 (by decide)).1
    (by decide)

/-- C3: for a usage without the `?` marker, `findDefinitions` returns the
concatenation of the sensitive-Label then sensitive-Value location lists at
the exact-case key whenever that concatenation is nonempty (short-circuiting
the insensitive buckets), and otherwise — as well as always for a `?`-marked
usage — returns the insensitive-Label then insensitive-Value concatenation
under the lower-cased key. -/
theorem C3_findDefinitions_precedence :
    ∀ (st : IndexState) (raw : String),
      (normalizeUsageName raw).baseName ≠ "" →
      ((normalizeUsageName raw).isExplicitCaseInsensitive = false →
        (sensitiveConcat st (normalizeUsageName raw).baseName ≠ [] →
          findDefinitions st raw =
            sensitiveConcat st (normalizeUsageName raw).baseName) ∧
        (sensitiveConcat st (normalizeUsageName raw).baseName = [] →
          findDefinitions st raw =
            insensitiveConcat st
              (String.mk (lowerStr (normalizeUsageName raw).baseName.data)))) ∧
      ((normalizeUsageName raw).isExplicitCaseInsensitive = true →
        findDefinitions st raw =
          insensitiveConcat st
            (String.mk (lowerStr (normalizeUsageName raw).baseName.data))) := by
  intro st raw hbase
  constructor
  · intro hexp
    constructor
    · intro hsens
      simp only [sensitiveConcat, List.map_append, ne_eq, List.append_eq_nil,
        List.map_eq_nil_iff, not_and] at hsens
      simp [findDefinitions, sensitiveConcat, hbase, hexp, hsens]
      exact fun h1 h2 => absurd h2 (hsens h1)
    · intro hsens
      simp only [sensitiveConcat] at hsens
      simp only [List.map_append, List.append_eq_nil, List.map_eq_nil_iff] at hsens
      simp [findDefinitions, insensitiveConcat, hbase, hexp, hsens.1, hsens.2]
  · intro hexp
    simp [findDefinitions, insensitiveConcat, hbase, hexp]

/-- Closed instance of `C3_findDefinitions_precedence` at the concrete
scenario state: the unmarked usage `result` has a nonempty sensitive
concatenation, which is returned as-is. -/
theorem C3_findDefinitions_precedence_witness :
    findDefinitions stateScenario "result" = sensitiveConcat stateScenario "result" :=
  ((C3_findDefinitions_precedence stateScenario "result" (by decide)).1
    (by decide)).1 (by decide)

/-- C5: a match of the label-colon pattern is exclusive — the line's effect
is exactly the one label registration, and none of the other patterns is
consulted (first conjunct; the concrete line `x:= 5` also matches the
assignment pattern, yet registers only a label) — whereas a line not
matching label-colon is tested against all eight remaining patterns
independently (second conjunct) and may register one definition per matching
pattern, as on `label db 1`, which registers the two labels `label` and
`db`. -/
theorem C5_label_colon_exclusive :
    (∀ (table : SymbolTable) (line : Nat) (fullText : String) (name : List Char),
      jsTrim (stripComment fullText) ≠ [] →
      labelDefExec (stripComment fullText) = some name →
      processLine table line fullText =
        recordDef addLabel table line (stripComment fullText) name) ∧
    (∀ (table : SymbolTable) (line : Nat) (fullText : String),
      jsTrim (stripComment fullText) ≠ [] →
      labelDefExec (stripComment fullText) = none →
      processLine table line fullText =
        processNonColon table line (stripComment fullText)) ∧
    (labelDefExec (stripComment "x:= 5") = some "x".data ∧
      assignExec (stripComment "x:= 5") = some "x".data ∧
      (buildSymbolTable ["x:= 5"]).labelsSensitive = [("x", [⟨0, 0, 0, 1⟩])] ∧
      (buildSymbolTable ["x:= 5"]).valuesSensitive = []) ∧
    (dataLabelExec (stripComment "label db 1") = some "label".data ∧
      labelKeywordExec (stripComment "label db 1") = some "db".data ∧
      (buildSymbolTable ["label db 1"]).labelsSensitive =
        [("label", [⟨0, 0, 0, 5⟩]), ("db", [⟨0, 6, 0, 8⟩])]) := by
  refine ⟨fun table line fullText name hne hcap => ?_,
          fun table line fullText hne hcap => ?_, by decide, by decide⟩ <;>
    simp [processLine, hne, hcap]

/-- Closed instance of `C5_label_colon_exclusive`: on the line `x:= 5` the
builder's per-line step is exactly the label registration. -/
theorem C5_label_colon_exclusive_witness :
    processLine SymbolTable.empty 0 "x:= 5" =
      recordDef addLabel SymbolTable.empty 0 (stripComment "x:= 5") "x".data :=
  C5_label_colon_exclusive.1 SymbolTable.empty 0 "x:= 5" "x".data
    (by decide) (by decide)

/-! ### Containment of regex captures in the searched line (towards C10) -/

/-- A list is always a prefix of itself followed by anything, as `isPrefixOf`
computes it. -/
theorem isPrefixOf_append_self (l₁ l₂ : List Char) :
    l₁.isPrefixOf (l₁ ++ l₂) = true := by
  induction l₁ with
  | nil => simp [List.isPrefixOf]
  | cons c p ih => simp [List.isPrefixOf, ih]

/-- The `indexOf` scan returns a non-negative index whenever the pattern
occurs at some split of the haystack. -/
theorem jsIndexOfAux_nonneg (pat t : List Char) :
    ∀ (s : List Char) (i : Nat), 0 ≤ jsIndexOfAux pat (s ++ pat ++ t) i := by
  intro s
  induction s with
  | nil =>
    intro i
    cases hp : pat ++ t with
    | nil => simp_all [jsIndexOfAux, isPrefixOf_append_self]
    | cons c u =>
      have : ([] : List Char) ++ pat ++ t = c :: u := by simpa using hp
      rw [this, jsIndexOfAux]
      have hpre : pat.isPrefixOf (c :: u) = true := hp ▸ isPrefixOf_append_self pat t
      rw [if_pos hpre]
      exact Int.natCast_nonneg i
  | cons c s ih =>
    intro i
    have : (c :: s) ++ pat ++ t = c :: (s ++ pat ++ t) := by simp
    rw [this, jsIndexOfAux]
    split
    · exact Int.natCast_nonneg i
    · exact ih (i + 1)

/-- `jsIndexOf` is non-negative on any contained pattern. -/
theorem jsIndexOf_nonneg_of_contained {pat hay : List Char}
    (h : pat <:+: hay) : 0 ≤ jsIndexOf hay pat := by
  obtain ⟨s, t, rfl⟩ := h
  exact jsIndexOfAux_nonneg pat t s 0

/-- A prefix of a suffix is contained in the whole list. -/
theorem pref_suff_contained {a b c : List Char} (h1 : a <+: b) (h2 : b <:+ c) :
    a <:+: c :=
  h1.isInfix.trans h2.isInfix

/-- `dropWhile` yields a suffix. -/
theorem dropWhile_isSuffix (q : Char → Bool) (l : List Char) :
    l.dropWhile q <:+ l :=
  ⟨l.takeWhile q, List.takeWhile_append_dropWhile q l⟩

/-- The identifier run split off by `identRunSplit` is a prefix of its
input. -/
theorem identRunSplit_isPref {cs name rest : List Char}
    (h : identRunSplit cs = some (name, rest)) : name <+: cs := by
  cases cs with
  | nil => simp [identRunSplit] at h
  | cons c r =>
    simp only [identRunSplit] at h
    split at h
    · simp only [Option.some.injEq, Prod.mk.injEq] at h
      obtain ⟨h1, h2⟩ := h
      refine ⟨r.dropWhile isIdentContChar, ?_⟩
      rw [← h1]
      simp [List.takeWhile_append_dropWhile]
    · simp at h

/-- The reverse of a `boundaryTrimAux` result is a suffix of the reversed
run it walked. -/
theorem boundaryTrimAux_suffixRev :
    ∀ (rev : List Char) (nxt : Option Char) (p : List Char),
      boundaryTrimAux rev nxt = some p → p.reverse <:+ rev := by
  intro rev
  induction rev with
  | nil => intro nxt p h; simp [boundaryTrimAux] at h
  | cons c rs ih =>
    intro nxt p h
    simp only [boundaryTrimAux] at h
    split at h
    · simp only [Option.some.injEq] at h
      rw [← h, List.reverse_reverse]
    · exact (ih _ _ h).trans (List.suffix_cons c rs)

/-- The `\b`-shortened capture is a prefix of the full identifier run. -/
theorem boundaryTrim_isPref {run rest p : List Char}
    (h : boundaryTrim run rest = some p) : p <+: run :=
  List.reverse_suffix.mp (boundaryTrimAux_suffixRev run.reverse rest.head? p h)

/-- `wsPlus` yields a suffix of its input. -/
theorem wsPlus_isSuffix {cs after : List Char} (h : wsPlus cs = some after) :
    after <:+ cs := by
  cases cs with
  | nil => simp [wsPlus] at h
  | cons c r =>
    simp only [wsPlus] at h
    split at h
    · simp only [Option.some.injEq] at h
      rw [← h]
      exact (dropWhile_isSuffix isJsSpace r).trans (List.suffix_cons c r)
    · simp at h

/-- The label-colon capture occurs in the line. -/
theorem labelDefExec_contained {text name : List Char}
    (h : labelDefExec text = some name) : name <:+: text := by
  cases hsplit : identRunSplit (text.dropWhile isJsSpace) with
  | none => simp [labelDefExec, hsplit] at h
  | some pr =>
    obtain ⟨nm, rest⟩ := pr
    simp only [labelDefExec, hsplit] at h
    split at h
    · simp only [Option.some.injEq] at h
      rw [← h]
      exact pref_suff_contained (identRunSplit_isPref hsplit)
        (dropWhile_isSuffix isJsSpace text)
    · simp at h

/-- The identifier-then-keyword capture occurs in the line. -/
theorem identKwExec_contained {kws : List String} {text name : List Char}
    (h : identKwExec kws text = some name) : name <:+: text := by
  cases hsplit : identRunSplit (text.dropWhile isJsSpace) with
  | none => simp [identKwExec, hsplit] at h
  | some pr =>
    obtain ⟨nm, rest⟩ := pr
    cases hws : wsPlus rest with
    | none => simp [identKwExec, hsplit, hws] at h
    | some after =>
      simp only [identKwExec, hsplit, hws] at h
      split at h
      · simp only [Option.some.injEq] at h
        rw [← h]
        exact pref_suff_contained (identRunSplit_isPref hsplit)
          (dropWhile_isSuffix isJsSpace text)
      · simp at h

/-- The keyword-then-identifier capture occurs in the line. -/
theorem kwIdentExec_contained {kw : String} {text name : List Char}
    (h : kwIdentExec kw text = some name) : name <:+: text := by
  simp only [kwIdentExec] at h
  split at h
  · cases hws : wsPlus ((text.dropWhile isJsSpace).drop kw.length) with
    | none => simp [hws] at h
    | some after =>
      simp only [hws] at h
      cases hsplit : identRunSplit after with
      | none => simp [hsplit] at h
      | some pr =>
        obtain ⟨nm, rest⟩ := pr
        simp only [hsplit] at h
        exact pref_suff_contained
          ((boundaryTrim_isPref h).trans (identRunSplit_isPref hsplit))
          (((wsPlus_isSuffix hws).trans
              (List.drop_suffix kw.length (text.dropWhile isJsSpace))).trans
            (dropWhile_isSuffix isJsSpace text))
  · simp at h

/-- The define/redefine capture occurs in the line. -/
theorem defineExec_contained {text name : List Char}
    (h : defineExec text = some name) : name <:+: text := by
  simp only [defineExec] at h
  cases hd : kwIdentExec "define" text with
  | some n =>
    rw [hd] at h
    simp only [Option.some.injEq] at h
    rw [← h]
    exact kwIdentExec_contained hd
  | none =>
    rw [hd] at h
    exact kwIdentExec_contained h

/-- The assignment capture occurs in the line. -/
theorem assignExec_contained {text name : List Char}
    (h : assignExec text = some name) : name <:+: text := by
  cases hsplit : identRunSplit (text.dropWhile isJsSpace) with
  | none => simp [assignExec, hsplit] at h
  | some pr =>
    obtain ⟨nm, rest⟩ := pr
    simp only [assignExec, hsplit] at h
    have hpref : name <+: text.dropWhile isJsSpace := by
      split at h
      · simp only [Option.some.injEq] at h
        rw [← h]; exact identRunSplit_isPref hsplit
      · simp only [Option.some.injEq] at h
        rw [← h]; exact identRunSplit_isPref hsplit
      · simp at h
    exact pref_suff_contained hpref (dropWhile_isSuffix isJsSpace text)

/-- C10: every name captured by one of the nine classifier patterns is a
substring of the comment-stripped line it was matched on, so the `indexOf`
column is non-negative for each of them (first nine conjuncts), and whenever
the column is non-negative the guard records the definition rather than
dropping it (last conjunct) — the silent-drop branch is unreachable. -/
theorem C10_capture_always_located :
    (∀ text name, labelDefExec text = some name → 0 ≤ jsIndexOf text name) ∧
    (∀ text name, dataLabelExec text = some name → 0 ≤ jsIndexOf text name) ∧
    (∀ text name, labelKeywordExec text = some name → 0 ≤ jsIndexOf text name) ∧
    (∀ text name, elementExec text = some name → 0 ≤ jsIndexOf text name) ∧
    (∀ text name, defineExec text = some name → 0 ≤ jsIndexOf text name) ∧
    (∀ text name, equExec text = some name → 0 ≤ jsIndexOf text name) ∧
    (∀ text name, macroExec text = some name → 0 ≤ jsIndexOf text name) ∧
    (∀ text name, assignExec text = some name → 0 ≤ jsIndexOf text name) ∧
    (∀ text name, loadExec text = some name → 0 ≤ jsIndexOf text name) ∧
    (∀ adder table line text name, 0 ≤ jsIndexOf text name →
      recordDef adder table line text name =
        adder table (String.mk name)
          ⟨line, (jsIndexOf text name).toNat, line,
            (jsIndexOf text name).toNat + name.length⟩) := by
  refine ⟨fun text name h => ?_, fun text name h => ?_, fun text name h => ?_,
    fun text name h => ?_, fun text name h => ?_, fun text name h => ?_,
    fun text name h => ?_, fun text name h => ?_, fun text name h => ?_,
    fun adder table line text name h => ?_⟩
  · exact jsIndexOf_nonneg_of_contained (labelDefExec_contained h)
  · exact jsIndexOf_nonneg_of_contained (identKwExec_contained h)
  · exact jsIndexOf_nonneg_of_contained (kwIdentExec_contained h)
  · exact jsIndexOf_nonneg_of_contained (kwIdentExec_contained h)
  · exact jsIndexOf_nonneg_of_contained (defineExec_contained h)
  · exact jsIndexOf_nonneg_of_contained (identKwExec_contained h)
  · exact jsIndexOf_nonneg_of_contained (kwIdentExec_contained h)
  · exact jsIndexOf_nonneg_of_contained (assignExec_contained h)
  · exact jsIndexOf_nonneg_of_contained (kwIdentExec_contained h)
  · unfold recordDef
    rw [if_pos h]

/-- Closed instance of `C10_capture_always_located`: the label capture on
`foo:` is found at a non-negative column. -/
theorem C10_capture_always_located_witness :
    0 ≤ jsIndexOf "foo:".data "foo".data :=
  C10_capture_always_located.1 "foo:".data "foo".data (by decide)

/-! ### Association-list lemmas about the index mutations (towards C6–C8) -/

/-- Deleting, re-setting and deleting a key again is the same as deleting it
once. -/
theorem aDelete_aSet_aDelete (m : List (String × α)) (k : String) (v : α) :
    aDelete (aSet (aDelete m k) k v) k = aDelete m k := by
  induction m with
  | nil => simp [aDelete, aSet]
  | cons e rest ih =>
    obtain ⟨k1, w⟩ := e
    by_cases hk : k1 = k <;> simp [aDelete, aSet, hk, ih]

/-- The uri filter used by `removeFromIndex` is idempotent on a location
list. -/
theorem filter_uri_idem (v : List SymbolLocation) (u : String) :
    (v.filter (fun loc => loc.uri ≠ u)).filter (fun loc => loc.uri ≠ u) =
      v.filter (fun loc => loc.uri ≠ u) := by
  simp [List.filter_filter]

/-- `removeFromIndex` is idempotent. -/
theorem removeFromIndex_idem (u : String)
    (M : List (String × List SymbolLocation)) :
    removeFromIndex u (removeFromIndex u M) = removeFromIndex u M := by
  induction M with
  | nil => rfl
  | cons e rest ih =>
    obtain ⟨n, v⟩ := e
    rw [removeFromIndex]
    by_cases hf : (v.filter (fun loc => loc.uri ≠ u)).length = 0
    · rw [if_pos hf]
      exact ih
    · rw [if_neg hf]
      simp only [removeFromIndex]
      rw [filter_uri_idem, if_neg hf, ih]

/-- A location list drawn entirely from uri `u` is wiped by the uri filter. -/
theorem filter_all_removed {ls : List SymbolLocation} {u : String}
    (h : ∀ loc ∈ ls, loc.uri = u) :
    ls.filter (fun loc => loc.uri ≠ u) = [] := by
  induction ls with
  | nil => rfl
  | cons a t ih =>
    have ha := h a (by simp)
    have ht : ∀ loc ∈ t, loc.uri = u := fun loc hl => h loc (by simp [hl])
    rw [List.filter_cons, ih ht]
    simp [ha]

/-- Appending locations that all carry uri `u` is invisible to
`removeFromIndex u`. -/
theorem removeFromIndex_appendLocs {u : String} {ls : List SymbolLocation}
    (hu : ∀ loc ∈ ls, loc.uri = u) (M : List (String × List SymbolLocation))
    (n : String) :
    removeFromIndex u (appendLocs M n ls) = removeFromIndex u M := by
  induction M with
  | nil =>
    rw [appendLocs]
    simp only [removeFromIndex]
    have hz : (ls.filter (fun loc => loc.uri ≠ u)).length = 0 := by
      rw [filter_all_removed hu]; rfl
    rw [if_pos hz]
  | cons e rest ih =>
    obtain ⟨k1, w⟩ := e
    by_cases hk : k1 = n
    · rw [appendLocs, if_pos hk]
      simp only [removeFromIndex]
      rw [List.filter_append, filter_all_removed hu, List.append_nil]
    · rw [appendLocs, if_neg hk]
      simp only [removeFromIndex]
      rw [ih]

/-- A whole-bucket merge tagged with uri `u` is invisible to
`removeFromIndex u`. -/
theorem removeFromIndex_addBucket (u : String) (kind : SymKind) (ins : Bool)
    (entries : List (String × List SrcRange)) :
    ∀ M, removeFromIndex u (addBucket u kind ins entries M) =
      removeFromIndex u M := by
  induction entries with
  | nil => intro M; rfl
  | cons e es ih =>
    intro M
    have hu : ∀ loc ∈ e.2.map
        (fun r => (⟨u, r, kind, ins⟩ : SymbolLocation)), loc.uri = u := by
      intro loc hl
      obtain ⟨r, _, rfl⟩ := List.mem_map.mp hl
      rfl
    calc removeFromIndex u (addBucket u kind ins (e :: es) M)
        = removeFromIndex u (addBucket u kind ins es
            (appendLocs M e.1 (e.2.map (fun r => ⟨u, r, kind, ins⟩)))) := rfl
      _ = removeFromIndex u (appendLocs M e.1
            (e.2.map (fun r => ⟨u, r, kind, ins⟩))) := ih _
      _ = removeFromIndex u M := removeFromIndex_appendLocs hu M e.1

/-- C6: indexing the same unchanged document twice in a row leaves the whole
index state — the per-document table map and the four aggregated maps —
exactly equal to the state after indexing it once. -/
theorem C6_indexDocument_idempotent (st : IndexState) (d : Document) :
    indexDocument (indexDocument st d) d = indexDocument st d := by
  by_cases h : isIndexableDocument d
  · simp only [indexDocument, h, if_true, addTableToIndex]
    simp only [IndexState.mk.injEq]
    refine ⟨?_, ?_, ?_, ?_, ?_⟩
    · rw [aDelete_aSet_aDelete]
    · rw [removeFromIndex_addBucket, removeFromIndex_idem]
    · rw [removeFromIndex_addBucket, removeFromIndex_idem]
    · rw [removeFromIndex_addBucket, removeFromIndex_idem]
    · rw [removeFromIndex_addBucket, removeFromIndex_idem]
  · simp [indexDocument, h]

/-! ### Frame lemmas for document removal (towards C7) -/

/-- A successful `aGet` points at an entry of the list. -/
theorem aGet_mem {M : List (String × α)} {k : String} {v : α}
    (h : aGet M k = some v) : (k, v) ∈ M := by
  induction M with
  | nil => simp [aGet] at h
  | cons e rest ih =>
    obtain ⟨k1, w⟩ := e
    rw [aGet] at h
    split at h
    next hk =>
      injection h with h2
      subst hk; subst h2
      exact List.mem_cons_self _ _
    next hk =>
      exact List.mem_cons_of_mem _ (ih h)

/-- Keys absent from the list make `aGet` answer `none`. -/
theorem aGet_eq_none {M : List (String × α)} {k : String}
    (h : k ∉ M.map Prod.fst) : aGet M k = none := by
  induction M with
  | nil => rfl
  | cons e rest ih =>
    simp only [List.map_cons, List.mem_cons, not_or] at h
    rw [aGet, if_neg (fun he => h.1 he.symm)]
    exact ih h.2

/-- `removeFromIndex` introduces no new keys. -/
theorem mem_keys_remove {u : String} {M : List (String × List SymbolLocation)}
    {k : String} (h : k ∈ (removeFromIndex u M).map Prod.fst) :
    k ∈ M.map Prod.fst := by
  induction M with
  | nil => simp [removeFromIndex] at h
  | cons e rest ih =>
    obtain ⟨n, v⟩ := e
    rw [removeFromIndex] at h
    by_cases hf : (v.filter (fun loc => loc.uri ≠ u)).length = 0
    · rw [if_pos hf] at h
      simp only [List.map_cons, List.mem_cons]
      exact Or.inr (ih h)
    · rw [if_neg hf] at h
      simp only [List.map_cons, List.mem_cons] at h ⊢
      rcases h with h | h
      · exact Or.inl h
      · exact Or.inr (ih h)

/-- The get-level description of `removeFromIndex` on a map with unique
keys: each key's surviving locations are exactly the original ones from
other uris, in order. -/
theorem aGetD_remove {u : String} :
    ∀ (M : List (String × List SymbolLocation)), keysNodup M → ∀ k,
      aGetD (removeFromIndex u M) k [] =
        (aGetD M k []).filter (fun loc => loc.uri ≠ u) := by
  intro M
  induction M with
  | nil => intro _ k; rfl
  | cons e rest ih =>
    intro hnd k
    obtain ⟨n, v⟩ := e
    have h0 : (n :: rest.map Prod.fst).Nodup := by
      simpa [keysNodup] using hnd
    have hn := (List.nodup_cons.mp h0).1
    have ht : keysNodup rest := (List.nodup_cons.mp h0).2
    rw [removeFromIndex]
    by_cases hk : n = k
    · subst hk
      have rhs0 : aGetD ((n, v) :: rest) n [] = v := by
        rw [aGetD, aGet, if_pos rfl]; rfl
      by_cases hf : (v.filter (fun loc => loc.uri ≠ u)).length = 0
      · rw [if_pos hf]
        have hg : aGet (removeFromIndex u rest) n = none :=
          aGet_eq_none (fun hm => hn (mem_keys_remove hm))
        have hv : v.filter (fun loc => loc.uri ≠ u) = [] :=
          List.length_eq_zero.mp hf
        have lhs0 : aGetD (removeFromIndex u rest) n [] = [] := by
          rw [aGetD, hg]; rfl
        rw [lhs0, rhs0, hv]
      · rw [if_neg hf]
        have lhs1 : aGetD ((n, v.filter (fun loc => loc.uri ≠ u)) ::
            removeFromIndex u rest) n [] = v.filter (fun loc => loc.uri ≠ u) := by
          rw [aGetD, aGet, if_pos rfl]; rfl
        rw [lhs1, rhs0]
    · have rskip : aGetD ((n, v) :: rest) k [] = aGetD rest k [] := by
        rw [aGetD, aGet, if_neg hk]; rfl
      rw [rskip]
      by_cases hf : (v.filter (fun loc => loc.uri ≠ u)).length = 0
      · rw [if_pos hf]
        exact ih ht k
      · rw [if_neg hf]
        have lskip : aGetD ((n, v.filter (fun loc => loc.uri ≠ u)) ::
            removeFromIndex u rest) k [] = aGetD (removeFromIndex u rest) k [] := by
          rw [aGetD, aGet, if_neg hk]; rfl
        rw [lskip]
        exact ih ht k

/-- No entry of a purged map is empty. -/
theorem remove_entries_nonempty {u : String} :
    ∀ (M : List (String × List SymbolLocation))
      (e : String × List SymbolLocation), e ∈ removeFromIndex u M → e.2 ≠ [] := by
  intro M
  induction M with
  | nil => intro e he; simp [removeFromIndex] at he
  | cons p rest ih =>
    intro e he
    obtain ⟨n, v⟩ := p
    rw [removeFromIndex] at he
    by_cases hf : (v.filter (fun loc => loc.uri ≠ u)).length = 0
    · rw [if_pos hf] at he
      exact ih e he
    · rw [if_neg hf] at he
      rcases List.mem_cons.mp he with h | h
      · rw [h]
        exact fun hnil => hf (congrArg List.length hnil)
      · exact ih e h

/-- Every location surviving in a purged map carries a different uri. -/
theorem remove_entries_uri {u : String} :
    ∀ (M : List (String × List SymbolLocation))
      (e : String × List SymbolLocation), e ∈ removeFromIndex u M →
      ∀ loc ∈ e.2, loc.uri ≠ u := by
  intro M
  induction M with
  | nil => intro e he; simp [removeFromIndex] at he
  | cons p rest ih =>
    intro e he
    obtain ⟨n, v⟩ := p
    rw [removeFromIndex] at he
    by_cases hf : (v.filter (fun loc => loc.uri ≠ u)).length = 0
    · rw [if_pos hf] at he
      exact ih e he
    · rw [if_neg hf] at he
      rcases List.mem_cons.mp he with h | h
      · rw [h]
        intro loc hl
        have := (List.mem_filter.mp hl).2
        simpa using this
      · exact ih e h

/-- Membership through `aGetD` of a purged map implies a different uri. -/
theorem locs_remove_ne_uri {u : String}
    {M : List (String × List SymbolLocation)} {k : String}
    {loc : SymbolLocation} (h : loc ∈ aGetD (removeFromIndex u M) k []) :
    loc.uri ≠ u := by
  cases hg : aGet (removeFromIndex u M) k with
  | none =>
    rw [aGetD, hg] at h
    simp at h
  | some l =>
    rw [aGetD, hg] at h
    exact remove_entries_uri M (k, l) (aGet_mem hg) loc h

/-- Every result of `findDefinitions` is the projection of an entry read from
one of the four aggregated maps at the usage's keys. -/
theorem findDefinitions_mem {st : IndexState} {raw : String} {loc : Location}
    (h : loc ∈ findDefinitions st raw) :
    ∃ loc0 : SymbolLocation, loc = locationOf loc0 ∧
      (loc0 ∈ aGetD st.labelsSensitive (normalizeUsageName raw).baseName [] ∨
       loc0 ∈ aGetD st.valuesSensitive (normalizeUsageName raw).baseName [] ∨
       loc0 ∈ aGetD st.labelsInsensitive
         (String.mk (lowerStr (normalizeUsageName raw).baseName.data)) [] ∨
       loc0 ∈ aGetD st.valuesInsensitive
         (String.mk (lowerStr (normalizeUsageName raw).baseName.data)) []) := by
  simp only [findDefinitions] at h
  split at h
  · simp at h
  · split at h
    · split at h
      · simp only [List.mem_map, List.mem_append] at h
        obtain ⟨loc0, hm, heq⟩ := h
        rcases hm with hm | hm
        · exact ⟨loc0, heq.symm, Or.inl hm⟩
        · exact ⟨loc0, heq.symm, Or.inr (Or.inl hm)⟩
      · simp only [List.mem_map, List.mem_append] at h
        obtain ⟨loc0, hm, heq⟩ := h
        rcases hm with hm | hm
        · exact ⟨loc0, heq.symm, Or.inr (Or.inr (Or.inl hm))⟩
        · exact ⟨loc0, heq.symm, Or.inr (Or.inr (Or.inr hm))⟩
    · rw [if_neg (fun hc => hc rfl)] at h
      simp only [List.mem_map, List.mem_append] at h
      obtain ⟨loc0, hm, heq⟩ := h
      rcases hm with hm | hm
      · exact ⟨loc0, heq.symm, Or.inr (Or.inr (Or.inl hm))⟩
      · exact ⟨loc0, heq.symm, Or.inr (Or.inr (Or.inr hm))⟩

/-- C7: after `removeDocument u`, (i) every `findDefinitions` result carries
a uri different from `u`; (ii) on maps with unique keys (which every
JavaScript `Map` has), each aggregated key retains exactly its original
locations from other documents, in order; (iii) no key is left bound to an
empty location list. -/
theorem C7_removeDocument_frame :
    ∀ (st : IndexState) (u : String),
      (∀ (name : String) (loc : Location),
          loc ∈ findDefinitions (removeDocument st u) name → loc.uri ≠ u) ∧
      ((keysNodup st.labelsSensitive → ∀ name,
          aGetD (removeDocument st u).labelsSensitive name [] =
            (aGetD st.labelsSensitive name []).filter (fun loc => loc.uri ≠ u)) ∧
       (keysNodup st.labelsInsensitive → ∀ name,
          aGetD (removeDocument st u).labelsInsensitive name [] =
            (aGetD st.labelsInsensitive name []).filter (fun loc => loc.uri ≠ u)) ∧
       (keysNodup st.valuesSensitive → ∀ name,
          aGetD (removeDocument st u).valuesSensitive name [] =
            (aGetD st.valuesSensitive name []).filter (fun loc => loc.uri ≠ u)) ∧
       (keysNodup st.valuesInsensitive → ∀ name,
          aGetD (removeDocument st u).valuesInsensitive name [] =
            (aGetD st.valuesInsensitive name []).filter (fun loc => loc.uri ≠ u))) ∧
      ((∀ e ∈ (removeDocument st u).labelsSensitive, e.2 ≠ []) ∧
       (∀ e ∈ (removeDocument st u).labelsInsensitive, e.2 ≠ []) ∧
       (∀ e ∈ (removeDocument st u).valuesSensitive, e.2 ≠ []) ∧
       (∀ e ∈ (removeDocument st u).valuesInsensitive, e.2 ≠ [])) := by
  intro st u
  refine ⟨?_, ⟨?_, ?_, ?_, ?_⟩, ⟨?_, ?_, ?_, ?_⟩⟩
  · intro name loc h
    obtain ⟨loc0, rfl, hc⟩ := findDefinitions_mem h
    rcases hc with h1 | h1 | h1 | h1 <;> exact locs_remove_ne_uri h1
  · intro hnd name; exact aGetD_remove st.labelsSensitive hnd name
  · intro hnd name; exact aGetD_remove st.labelsInsensitive hnd name
  · intro hnd name; exact aGetD_remove st.valuesSensitive hnd name
  · intro hnd name; exact aGetD_remove st.valuesInsensitive hnd name
  · exact fun e he => remove_entries_nonempty st.labelsSensitive e he
  · exact fun e he => remove_entries_nonempty st.labelsInsensitive e he
  · exact fun e he => remove_entries_nonempty st.valuesSensitive e he
  · exact fun e he => remove_entries_nonempty st.valuesInsensitive e he

/-- Closed instance of `C7_removeDocument_frame`: removing the scenario
document from the two-document index leaves the other document's `foo`
definition reachable and untouched, with its foreign uri. -/
theorem C7_removeDocument_frame_witness :
    (⟨"file:///b.asm", ⟨0, 0, 0, 3⟩⟩ : Location).uri ≠ "file:///t.asm" ∧
    aGetD (removeDocument stateTwoDocs "file:///t.asm").valuesSensitive "foo" [] =
      (aGetD stateTwoDocs.valuesSensitive "foo" []).filter
        (fun loc => loc.uri ≠ "file:///t.asm") :=
  ⟨(C7_removeDocument_frame stateTwoDocs "file:///t.asm").1 "foo"
      ⟨"file:///b.asm", ⟨0, 0, 0, 3⟩⟩ (by decide),
   (C7_removeDocument_frame stateTwoDocs "file:///t.asm").2.1.2.2.1
      (by decide) "foo"⟩

/-! ### Persistence round-trip lemmas (towards C8) -/

/-- Range quadruples survive the persisted encoding exactly. -/
theorem persistedToRanges_rangesToPersisted (v : List SrcRange) :
    persistedToRanges (rangesToPersisted v) = v := by
  induction v with
  | nil => rfl
  | cons r t ih =>
    simp only [persistedToRanges, rangesToPersisted, List.map_cons] at ih ⊢
    rw [ih]

/-- A bucket map survives `mapToRecord` followed by `recordToMap` exactly. -/
theorem recordToMap_mapToRecord (m : List (String × List SrcRange)) :
    recordToMap (mapToRecord m) = m := by
  induction m with
  | nil => rfl
  | cons e t ih =>
    simp only [recordToMap, mapToRecord, List.map_cons] at ih ⊢
    rw [persistedToRanges_rangesToPersisted]
    rw [ih]

/-- Loading a saved payload rebuilds exactly the aggregation of the saved
per-document tables. -/
theorem applyLoaded_save (st : IndexState) :
    applyLoadedIndex (saveToCachePayload st) = rebuildFromDocuments st.documents := by
  unfold applyLoadedIndex saveToCachePayload rebuildFromDocuments
  rw [List.foldl_map]
  have hstep :
      (fun (st2 : IndexState) (e : String × SymbolTable) =>
        loadDocStep st2
          ⟨e.1, mapToRecord e.2.labelsSensitive, mapToRecord e.2.labelsInsensitive,
           mapToRecord e.2.valuesSensitive, mapToRecord e.2.valuesInsensitive⟩) =
      rebuildStep := by
    funext st2 e
    simp only [loadDocStep, rebuildStep, recordToMap_mapToRecord]
  rw [hstep]

/-- Two states whose four aggregated maps agree on every `get` (up to the
empty default) are indistinguishable to `findDefinitions` and
`lookupSymbolKind`. -/
theorem lookups_congr {st1 st2 : IndexState}
    (h : ∀ name : String,
      aGetD st1.labelsSensitive name [] = aGetD st2.labelsSensitive name [] ∧
      aGetD st1.labelsInsensitive name [] = aGetD st2.labelsInsensitive name [] ∧
      aGetD st1.valuesSensitive name [] = aGetD st2.valuesSensitive name [] ∧
      aGetD st1.valuesInsensitive name [] = aGetD st2.valuesInsensitive name []) :
    ∀ raw : String,
      findDefinitions st1 raw = findDefinitions st2 raw ∧
      lookupSymbolKind st1 raw = lookupSymbolKind st2 raw := by
  intro raw
  obtain ⟨e1, e2, e3, e4⟩ := h (normalizeUsageName raw).baseName
  obtain ⟨f1, f2, f3, f4⟩ :=
    h (String.mk (lowerStr (normalizeUsageName raw).baseName.data))
  constructor
  · simp only [findDefinitions, e1, e3, f2, f4]
  · simp only [lookupSymbolKind, bucketHit, e1, e3, f2, f4]

/-! ### Every reachable state keeps its aggregated maps coherent -/

/-- Get-level effect of `appendLocs`. -/
theorem aGetD_appendLocs (M : List (String × List SymbolLocation))
    (n : String) (ls : List SymbolLocation) (k : String) :
    aGetD (appendLocs M n ls) k [] =
      if n = k then aGetD M k [] ++ ls else aGetD M k [] := by
  induction M with
  | nil => by_cases hk : n = k <;> simp [appendLocs, aGetD, aGet, hk]
  | cons e rest ih =>
    obtain ⟨k1, v⟩ := e
    by_cases h1 : k1 = n
    · subst h1
      by_cases hk : k1 = k
      · subst hk
        simp [appendLocs, aGetD, aGet]
      · simp [appendLocs, aGetD, aGet, hk]
    · by_cases hk : k1 = k
      · subst hk
        have hnk : ¬n = k1 := fun he => h1 he.symm
        simp [appendLocs, aGetD, aGet, h1, hnk]
      · simpa [appendLocs, aGetD, aGet, h1, hk] using ih

/-- Get-level effect of one whole-bucket merge. -/
theorem aGetD_addBucket (u : String) (kind : SymKind) (ins : Bool) :
    ∀ (entries : List (String × List SrcRange))
      (M : List (String × List SymbolLocation)) (k : String),
      aGetD (addBucket u kind ins entries M) k [] =
        aGetD M k [] ++ bucketContrib u kind ins entries k := by
  intro entries
  induction entries with
  | nil => intro M k; simp [addBucket, bucketContrib]
  | cons e es ih =>
    intro M k
    have hstep : addBucket u kind ins (e :: es) M =
        addBucket u kind ins es
          (appendLocs M e.1 (e.2.map (fun r => ⟨u, r, kind, ins⟩))) := rfl
    rw [hstep, ih, aGetD_appendLocs, bucketContrib]
    by_cases he : e.1 = k
    · rw [if_pos he, if_pos he, List.append_assoc]
    · rw [if_neg he, if_neg he]

/-- The four bucket projections of the rebuild fold, as plain bucket folds. -/
theorem foldl_rebuildStep_buckets :
    ∀ (ds : List (String × SymbolTable)) (init : IndexState),
      (ds.foldl rebuildStep init).labelsSensitive =
        ds.foldl (fun M e => addBucket e.1 SymKind.label false e.2.labelsSensitive M)
          init.labelsSensitive ∧
      (ds.foldl rebuildStep init).labelsInsensitive =
        ds.foldl (fun M e => addBucket e.1 SymKind.label true e.2.labelsInsensitive M)
          init.labelsInsensitive ∧
      (ds.foldl rebuildStep init).valuesSensitive =
        ds.foldl (fun M e => addBucket e.1 SymKind.value false e.2.valuesSensitive M)
          init.valuesSensitive ∧
      (ds.foldl rebuildStep init).valuesInsensitive =
        ds.foldl (fun M e => addBucket e.1 SymKind.value true e.2.valuesInsensitive M)
          init.valuesInsensitive := by
  intro ds
  induction ds with
  | nil => intro init; exact ⟨rfl, rfl, rfl, rfl⟩
  | cons e ds ih => intro init; exact ih (rebuildStep init e)

/-- Get-level description of a plain bucket fold. -/
theorem aGetD_addBucket_fold (kind : SymKind) (ins : Bool)
    (f : SymbolTable → List (String × List SrcRange)) :
    ∀ (ds : List (String × SymbolTable))
      (M : List (String × List SymbolLocation)) (k : String),
      aGetD (ds.foldl (fun M2 e => addBucket e.1 kind ins (f e.2) M2) M) k [] =
        aGetD M k [] ++ aggLocs kind ins f ds k := by
  intro ds
  induction ds with
  | nil => intro M k; simp [aggLocs]
  | cons e ds ih =>
    intro M k
    rw [List.foldl_cons, ih, aGetD_addBucket]
    simp [aggLocs, List.append_assoc]

/-- Get-level description of the sensitive-Label bucket of a rebuilt index. -/
theorem rebuild_get_ls (ds : List (String × SymbolTable)) (k : String) :
    aGetD (rebuildFromDocuments ds).labelsSensitive k [] =
      aggLocs SymKind.label false (fun T => T.labelsSensitive) ds k := by
  rw [rebuildFromDocuments, (foldl_rebuildStep_buckets ds IndexState.empty).1,
    aGetD_addBucket_fold SymKind.label false (fun T => T.labelsSensitive)]
  rfl

/-- Get-level description of the insensitive-Label bucket of a rebuilt
index. -/
theorem rebuild_get_li (ds : List (String × SymbolTable)) (k : String) :
    aGetD (rebuildFromDocuments ds).labelsInsensitive k [] =
      aggLocs SymKind.label true (fun T => T.labelsInsensitive) ds k := by
  rw [rebuildFromDocuments, (foldl_rebuildStep_buckets ds IndexState.empty).2.1,
    aGetD_addBucket_fold SymKind.label true (fun T => T.labelsInsensitive)]
  rfl

/-- Get-level description of the sensitive-Value bucket of a rebuilt index. -/
theorem rebuild_get_vs (ds : List (String × SymbolTable)) (k : String) :
    aGetD (rebuildFromDocuments ds).valuesSensitive k [] =
      aggLocs SymKind.value false (fun T => T.valuesSensitive) ds k := by
  rw [rebuildFromDocuments, (foldl_rebuildStep_buckets ds IndexState.empty).2.2.1,
    aGetD_addBucket_fold SymKind.value false (fun T => T.valuesSensitive)]
  rfl

/-- Get-level description of the insensitive-Value bucket of a rebuilt
index. -/
theorem rebuild_get_vi (ds : List (String × SymbolTable)) (k : String) :
    aGetD (rebuildFromDocuments ds).valuesInsensitive k [] =
      aggLocs SymKind.value true (fun T => T.valuesInsensitive) ds k := by
  rw [rebuildFromDocuments, (foldl_rebuildStep_buckets ds IndexState.empty).2.2.2,
    aGetD_addBucket_fold SymKind.value true (fun T => T.valuesInsensitive)]
  rfl

/-- A bucket contribution is entirely tagged with its uri. -/
theorem bucketContrib_uri (uri : String) (kind : SymKind) (ins : Bool) :
    ∀ (entries : List (String × List SrcRange)) (k : String)
      (loc : SymbolLocation),
      loc ∈ bucketContrib uri kind ins entries k → loc.uri = uri := by
  intro entries
  induction entries with
  | nil => intro k loc h; simp [bucketContrib] at h
  | cons e es ih =>
    intro k loc h
    rw [bucketContrib] at h
    by_cases he : e.1 = k
    · rw [if_pos he] at h
      rcases List.mem_append.mp h with h | h
      · obtain ⟨r, _, rfl⟩ := List.mem_map.mp h
        rfl
      · exact ih k loc h
    · rw [if_neg he] at h
      exact ih k loc h

/-- Filtering one uri out of an aggregation is deleting that document. -/
theorem aggLocs_filter (kind : SymKind) (ins : Bool)
    (f : SymbolTable → List (String × List SrcRange)) (u : String) :
    ∀ (ds : List (String × SymbolTable)) (k : String),
      (aggLocs kind ins f ds k).filter (fun loc => loc.uri ≠ u) =
        aggLocs kind ins f (aDelete ds u) k := by
  intro ds
  induction ds with
  | nil => intro k; rfl
  | cons e ds ih =>
    intro k
    obtain ⟨n, T⟩ := e
    by_cases hn : n = u
    · have hz : (bucketContrib n kind ins (f T) k).filter
          (fun loc => loc.uri ≠ u) = [] :=
        filter_all_removed
          (fun loc hl => (bucketContrib_uri n kind ins (f T) k loc hl).trans hn)
      simp only [aggLocs, List.map_cons, List.flatten_cons, List.filter_append]
      rw [hz, aDelete, if_pos hn]
      simpa [aggLocs] using ih k
    · have hkeep : (bucketContrib n kind ins (f T) k).filter
          (fun loc => loc.uri ≠ u) = bucketContrib n kind ins (f T) k :=
        List.filter_eq_self.mpr (fun loc hl => by
          simp [bucketContrib_uri n kind ins (f T) k loc hl, hn])
      simp only [aggLocs, List.map_cons, List.flatten_cons, List.filter_append]
      rw [hkeep, aDelete, if_neg hn]
      simp only [List.map_cons, List.flatten_cons]
      have h2 := ih k
      simp only [aggLocs] at h2
      rw [h2]

/-- Keys never survive their own `aDelete`. -/
theorem not_mem_keys_aDelete (m : List (String × α)) (u : String) :
    u ∉ (aDelete m u).map Prod.fst := by
  induction m with
  | nil => simp [aDelete]
  | cons e rest ih =>
    obtain ⟨k1, v⟩ := e
    by_cases h1 : k1 = u
    · rw [aDelete, if_pos h1]
      exact ih
    · rw [aDelete, if_neg h1]
      simp only [List.map_cons, List.mem_cons, not_or]
      exact ⟨fun he => h1 he.symm, ih⟩

/-- Setting an absent key appends the binding. -/
theorem aSet_of_not_mem {m : List (String × α)} {u : String}
    (h : u ∉ m.map Prod.fst) (v : α) : aSet m u v = m ++ [(u, v)] := by
  induction m with
  | nil => rfl
  | cons e rest ih =>
    obtain ⟨k1, w⟩ := e
    simp only [List.map_cons, List.mem_cons, not_or] at h
    rw [aSet, if_neg (fun he => h.1 he.symm), List.cons_append, ih h.2]

/-- Purging one document from a coherent bucket leaves the aggregation of
the remaining documents. -/
theorem bucket_remove_step {u : String} {kind : SymKind} {ins : Bool}
    {f : SymbolTable → List (String × List SrcRange)}
    {B : List (String × List SymbolLocation)} {ds : List (String × SymbolTable)}
    (hnd : keysNodup B)
    (hagg : ∀ k, aGetD B k [] = aggLocs kind ins f ds k) (k : String) :
    aGetD (removeFromIndex u B) k [] = aggLocs kind ins f (aDelete ds u) k := by
  rw [aGetD_remove B hnd k, hagg k, aggLocs_filter]

/-- Delete-then-insert of one document's bucket keeps a coherent bucket
coherent with the updated document list. -/
theorem bucket_index_step {u : String} {kind : SymKind} {ins : Bool}
    {f : SymbolTable → List (String × List SrcRange)} (T : SymbolTable)
    {B : List (String × List SymbolLocation)} {ds : List (String × SymbolTable)}
    (hnd : keysNodup B)
    (hagg : ∀ k, aGetD B k [] = aggLocs kind ins f ds k) (k : String) :
    aGetD (addBucket u kind ins (f T) (removeFromIndex u B)) k [] =
      aggLocs kind ins f (aSet (aDelete ds u) u T) k := by
  rw [aGetD_addBucket, bucket_remove_step hnd hagg k,
    aSet_of_not_mem (not_mem_keys_aDelete ds u)]
  simp [aggLocs, List.flatten_append]

/-- No key introduced by `appendLocs` is new except the appended one. -/
theorem mem_keys_appendLocs {M : List (String × List SymbolLocation)}
    {n k : String} {ls : List SymbolLocation}
    (h : k ∈ (appendLocs M n ls).map Prod.fst) :
    k ∈ M.map Prod.fst ∨ k = n := by
  induction M with
  | nil =>
    simp [appendLocs] at h
    exact Or.inr h
  | cons e rest ih =>
    obtain ⟨k1, v⟩ := e
    by_cases h1 : k1 = n
    · rw [appendLocs, if_pos h1] at h
      exact Or.inl h
    · rw [appendLocs, if_neg h1] at h
      simp only [List.map_cons, List.mem_cons] at h ⊢
      rcases h with h | h
      · exact Or.inl (Or.inl h)
      · rcases ih h with h2 | h2
        · exact Or.inl (Or.inr h2)
        · exact Or.inr h2

/-- `appendLocs` preserves key uniqueness. -/
theorem nodup_appendLocs {M : List (String × List SymbolLocation)}
    (n : String) (ls : List SymbolLocation) (h : keysNodup M) :
    keysNodup (appendLocs M n ls) := by
  induction M with
  | nil => simp [appendLocs, keysNodup]
  | cons e rest ih =>
    obtain ⟨k1, v⟩ := e
    have h0 : (k1 :: rest.map Prod.fst).Nodup := by simpa [keysNodup] using h
    have hk1 := (List.nodup_cons.mp h0).1
    have hrest : keysNodup rest := (List.nodup_cons.mp h0).2
    by_cases h1 : k1 = n
    · rw [appendLocs, if_pos h1]
      simpa [keysNodup] using h0
    · rw [appendLocs, if_neg h1]
      have h3 : k1 ∉ (appendLocs rest n ls).map Prod.fst := by
        intro hm
        rcases mem_keys_appendLocs hm with hm | hm
        · exact hk1 hm
        · exact h1 hm
      simp only [keysNodup, List.map_cons]
      exact List.nodup_cons.mpr ⟨h3, ih hrest⟩

/-- `addBucket` preserves key uniqueness. -/
theorem nodup_addBucket (u : String) (kind : SymKind) (ins : Bool) :
    ∀ (entries : List (String × List SrcRange))
      (M : List (String × List SymbolLocation)),
      keysNodup M → keysNodup (addBucket u kind ins entries M) := by
  intro entries
  induction entries with
  | nil => intro M h; exact h
  | cons e es ih => intro M h; exact ih _ (nodup_appendLocs e.1 _ h)

/-- The surviving keys of a purge form a sublist of the original keys. -/
theorem keys_remove_sublist (u : String) :
    ∀ M : List (String × List SymbolLocation),
      ((removeFromIndex u M).map Prod.fst).Sublist (M.map Prod.fst) := by
  intro M
  induction M with
  | nil => simp [removeFromIndex]
  | cons e rest ih =>
    obtain ⟨n, v⟩ := e
    rw [removeFromIndex]
    by_cases hf : (v.filter (fun loc => loc.uri ≠ u)).length = 0
    · rw [if_pos hf]
      simp only [List.map_cons]
      exact ih.cons n
    · rw [if_neg hf]
      simp only [List.map_cons]
      exact ih.cons₂ n

/-- `removeFromIndex` preserves key uniqueness. -/
theorem nodup_remove {u : String} {M : List (String × List SymbolLocation)}
    (h : keysNodup M) : keysNodup (removeFromIndex u M) :=
  List.Nodup.sublist (keys_remove_sublist u M) h

/-- Unfolding `indexDocument` on an indexable document. -/
theorem indexDocument_eq {d : Document} (hd : isIndexableDocument d = true)
    (st : IndexState) :
    indexDocument st d =
      ⟨aSet (aDelete st.documents d.uri) d.uri (buildSymbolTable d.lines),
       addBucket d.uri SymKind.label false (buildSymbolTable d.lines).labelsSensitive
         (removeFromIndex d.uri st.labelsSensitive),
       addBucket d.uri SymKind.label true (buildSymbolTable d.lines).labelsInsensitive
         (removeFromIndex d.uri st.labelsInsensitive),
       addBucket d.uri SymKind.value false (buildSymbolTable d.lines).valuesSensitive
         (removeFromIndex d.uri st.valuesSensitive),
       addBucket d.uri SymKind.value true (buildSymbolTable d.lines).valuesInsensitive
         (removeFromIndex d.uri st.valuesInsensitive)⟩ := by
  simp [indexDocument, hd, addTableToIndex]

/-- The fresh index satisfies the invariant. -/
theorem inv_empty : IndexInv IndexState.empty :=
  ⟨fun _ => ⟨rfl, rfl, rfl, rfl⟩, List.nodup_nil, List.nodup_nil,
   List.nodup_nil, List.nodup_nil⟩

/-- `indexDocument` preserves the invariant. -/
theorem inv_indexDocument {st : IndexState} (h : IndexInv st) (d : Document) :
    IndexInv (indexDocument st d) := by
  obtain ⟨hcoh, hn1, hn2, hn3, hn4⟩ := h
  by_cases hd : isIndexableDocument d
  · rw [indexDocument_eq hd]
    refine ⟨fun k => ⟨?_, ?_, ?_, ?_⟩, ?_, ?_, ?_, ?_⟩
    · rw [rebuild_get_ls]
      exact bucket_index_step (buildSymbolTable d.lines) hn1
        (fun k2 => ((hcoh k2).1).trans (rebuild_get_ls st.documents k2)) k
    · rw [rebuild_get_li]
      exact bucket_index_step (buildSymbolTable d.lines) hn2
        (fun k2 => ((hcoh k2).2.1).trans (rebuild_get_li st.documents k2)) k
    · rw [rebuild_get_vs]
      exact bucket_index_step (buildSymbolTable d.lines) hn3
        (fun k2 => ((hcoh k2).2.2.1).trans (rebuild_get_vs st.documents k2)) k
    · rw [rebuild_get_vi]
      exact bucket_index_step (buildSymbolTable d.lines) hn4
        (fun k2 => ((hcoh k2).2.2.2).trans (rebuild_get_vi st.documents k2)) k
    · exact nodup_addBucket _ _ _ _ _ (nodup_remove hn1)
    · exact nodup_addBucket _ _ _ _ _ (nodup_remove hn2)
    · exact nodup_addBucket _ _ _ _ _ (nodup_remove hn3)
    · exact nodup_addBucket _ _ _ _ _ (nodup_remove hn4)
  · rw [indexDocument, if_neg hd]
    exact ⟨hcoh, hn1, hn2, hn3, hn4⟩

/-- `removeDocument` preserves the invariant. -/
theorem inv_removeDocument {st : IndexState} (h : IndexInv st) (u : String) :
    IndexInv (removeDocument st u) := by
  obtain ⟨hcoh, hn1, hn2, hn3, hn4⟩ := h
  refine ⟨fun k => ⟨?_, ?_, ?_, ?_⟩, ?_, ?_, ?_, ?_⟩
  · rw [show (removeDocument st u).documents = aDelete st.documents u from rfl,
      rebuild_get_ls]
    exact bucket_remove_step hn1
      (fun k2 => ((hcoh k2).1).trans (rebuild_get_ls st.documents k2)) k
  · rw [show (removeDocument st u).documents = aDelete st.documents u from rfl,
      rebuild_get_li]
    exact bucket_remove_step hn2
      (fun k2 => ((hcoh k2).2.1).trans (rebuild_get_li st.documents k2)) k
  · rw [show (removeDocument st u).documents = aDelete st.documents u from rfl,
      rebuild_get_vs]
    exact bucket_remove_step hn3
      (fun k2 => ((hcoh k2).2.2.1).trans (rebuild_get_vs st.documents k2)) k
  · rw [show (removeDocument st u).documents = aDelete st.documents u from rfl,
      rebuild_get_vi]
    exact bucket_remove_step hn4
      (fun k2 => ((hcoh k2).2.2.2).trans (rebuild_get_vi st.documents k2)) k
  · exact nodup_remove hn1
  · exact nodup_remove hn2
  · exact nodup_remove hn3
  · exact nodup_remove hn4

/-- Every reachable state satisfies the invariant — in particular every
reachable state is coherent. -/
theorem reachable_inv {st : IndexState} (h : Reachable st) : IndexInv st := by
  induction h with
  | empty => exact inv_empty
  | index st2 d _ ih => exact inv_indexDocument ih d
  | remove st2 u _ ih => exact inv_removeDocument ih u

/-- C8: for every in-memory index state reachable through the class's
operations (any sequence of `indexDocument` and `removeDocument` calls on a
fresh index), serializing the per-document tables to the persisted format
and loading the result back — without rescanning any document — produces an
index whose `findDefinitions` and `lookupSymbolKind` answers agree with the
original on every usage name. -/
theorem C8_persistence_roundtrip :
    ∀ st : IndexState, Reachable st → ∀ raw : String,
      findDefinitions (applyLoadedIndex (saveToCachePayload st)) raw =
        findDefinitions st raw ∧
      lookupSymbolKind (applyLoadedIndex (saveToCachePayload st)) raw =
        lookupSymbolKind st raw := by
  intro st hr raw
  have hc := (reachable_inv hr).1
  rw [applyLoaded_save]
  exact lookups_congr
    (fun name =>
      ⟨((hc name).1).symm, ((hc name).2.1).symm,
       ((hc name).2.2.1).symm, ((hc name).2.2.2).symm⟩) raw

/-- Closed instance of `C8_persistence_roundtrip` on the concrete reachable
two-document state. -/
theorem C8_persistence_roundtrip_witness :
    findDefinitions (applyLoadedIndex (saveToCachePayload stateTwoDocs)) "foo" =
      findDefinitions stateTwoDocs "foo" ∧
    lookupSymbolKind (applyLoadedIndex (saveToCachePayload stateTwoDocs)) "foo" =
      lookupSymbolKind stateTwoDocs "foo" :=
  C8_persistence_roundtrip stateTwoDocs
    (Reachable.index stateScenario docSensitiveOnly
      (Reachable.index IndexState.empty docScenario Reachable.empty)) "foo"

end FasmLS
